import Mathlib

/-!
The userscript xet_m3u8_export.user.js : a shallow embedding


The userscript `src/tampermonkey/xet_m3u8_export.user.js` is embedded function by
function.  JavaScript strings are sequences of UTF-16 code units, JavaScript
numbers are IEEE-754 binary64 values (modelled as the rationals they denote,
with an explicit rounding step after every arithmetic operation), the `Map`
called `pool` is an insertion-ordered association list, and the effects of the
click handler are recorded as a trace.
-/

namespace XetExport

/-! ## Strings -/

/-- A JavaScript string: its sequence of UTF-16 code units. -/
abbrev JSString := List Nat

/-- The UTF-16 code units of one Unicode scalar value. -/
def utf16Units (c : Char) : List Nat :=
  if c.toNat < 0x10000 then [c.toNat]
  else [0xD800 + (c.toNat - 0x10000) / 0x400, 0xDC00 + (c.toNat - 0x10000) % 0x400]

/-- The JavaScript string written by a source literal. -/
def lit (s : String) : JSString :=
  s.toList.flatMap utf16Units

/-- Does `p` occur in `s` starting at its first code unit (exact comparison)? -/
def startsWith (p : JSString) (s : JSString) : Bool :=
  match p, s with
  | [], _ => true
  | _ :: _, [] => false
  | a :: p', b :: s' => a == b && startsWith p' s'

/-- The method `String.prototype.includes`: `p` occurs somewhere in `s`. -/
def includes (s : JSString) (p : JSString) : Bool :=
  match s with
  | [] => startsWith p []
  | c :: s' => startsWith p (c :: s') || includes s' p

/-- The regular-expression `Canonicalize` operation of a pattern without the
`u` flag, restricted to what a pattern of ASCII letters can observe: an ASCII
lower-case letter becomes its upper-case letter; every other code unit below 128
is unchanged; a code unit from 128 on never canonicalizes to one below 128, so
it is left as it is. -/
def canonicalize (c : Nat) : Nat :=
  if 97 ≤ c ∧ c ≤ 122 then c - 32 else c

/-- Does the literal pattern `p` match `s` at its first code unit under the
`i` flag? -/
def startsWithCI (p : JSString) (s : JSString) : Bool :=
  match p, s with
  | [], _ => true
  | _ :: _, [] => false
  | a :: p', b :: s' => canonicalize a == canonicalize b && startsWithCI p' s'

/-- Does the literal pattern `p` match somewhere in `s` under the `i` flag? -/
def includesCI (s : JSString) (p : JSString) : Bool :=
  match s with
  | [] => startsWithCI p []
  | c :: s' => startsWithCI p (c :: s') || includesCI s' p

/-- The test `/a1|a2|.../i.test(s)` for an alternation of literal words. -/
def testAlternationCI (alts : List JSString) (s : JSString) : Bool :=
  alts.any (fun p => includesCI s p)

/-- ASCII lower-casing of a code unit. -/
def toLowerASCII (c : Nat) : Nat :=
  if 65 ≤ c ∧ c ≤ 90 then c + 32 else c

/-- The specification's reading of "`s` contains the word `w`, case-insensitively",
for a lower-case word `w`: some stretch of `s` lower-cases to `w`. -/
def ContainsIgnoringCase (s w : JSString) : Prop :=
  ∃ pre mid post : JSString, s = pre ++ mid ++ post ∧ mid.map toLowerASCII = w

/-- A word of ASCII lower-case letters. -/
def IsLowerWord (w : JSString) : Prop :=
  ∀ c ∈ w, 97 ≤ c ∧ c ≤ 122

/-- The `WhiteSpace` and `LineTerminator` code units, the ones `trim` removes. -/
def isTrimUnit (c : Nat) : Bool :=
  c == 0x09 || c == 0x0A || c == 0x0B || c == 0x0C || c == 0x0D || c == 0x20 ||
  c == 0xA0 || c == 0x1680 || (0x2000 ≤ c && c ≤ 0x200A) || c == 0x2028 ||
  c == 0x2029 || c == 0x202F || c == 0x205F || c == 0x3000 || c == 0xFEFF

/-- The method `String.prototype.trim`. -/
def trim (s : JSString) : JSString :=
  ((s.dropWhile isTrimUnit).reverse.dropWhile isTrimUnit).reverse

/-! ## Numbers -/

/-- Round a rational to the nearest integer, ties to the even one. -/
def roundHalfEven (t : ℚ) : ℤ :=
  let f := ⌊t⌋
  if t - f < 1 / 2 then f
  else if 1 / 2 < t - f then f + 1
  else if f % 2 = 0 then f else f + 1

/-- The binary64 value nearest to a rational (round to nearest, ties to even;
53-bit significand), for magnitudes in the normal range, which is where every
number of this program lies. -/
def fl (x : ℚ) : ℚ :=
  if x = 0 then 0
  else
    let u : ℚ := (2 : ℚ) ^ (Int.log 2 |x| - 52)
    roundHalfEven (x / u) * u

/-! ## score -/

/-- The alternatives of `/master|index|playlist/i`. -/
def masterWords : List JSString := [lit "master", lit "index", lit "playlist"]

/-- The alternatives of `/token|sign|expires/i`. -/
def tokenWords : List JSString := [lit "token", lit "sign", lit "expires"]

/-- The function `score(url)`:
`let s = url.length / 10; if (/master|index|playlist/i.test(url)) s += 30;`
`if (/token|sign|expires/i.test(url)) s += 20; return Math.floor(s);` -/
def score (url : JSString) : ℤ :=
  let s0 : ℚ := fl ((url.length : ℚ) / 10)
  let s1 : ℚ := if testAlternationCI masterWords url then fl (s0 + 30) else s0
  let s2 : ℚ := if testAlternationCI tokenWords url then fl (s1 + 20) else s1
  ⌊s2⌋

/-! ## Values and errors -/

/-- The JavaScript values the intercepted calls are modelled with: `undefined`,
`null`, a string, and an object that is neither a string nor an array.  Of such
an object only its `url` property is recorded (`undefined` when it has none,
as for a `URL` object; the URL string for a `Request`); it has no `includes`
method. -/
inductive JSValue where
  | undefined : JSValue
  | null : JSValue
  | str (s : JSString) : JSValue
  | obj (url : JSValue) : JSValue
  deriving DecidableEq, Repr

/-- A thrown JavaScript exception. -/
inductive JSError where
  | typeError : JSError
  deriving DecidableEq, Repr

/-- The abstract operation `ToBoolean`. -/
def truthy : JSValue → Bool
  | .undefined => false
  | .null => false
  | .str s => !s.isEmpty
  | .obj _ => true

/-- The property read `v?.url`: `undefined` on `undefined` and `null` (the
optional chain short-circuits) and on a string (no such property on
`String.prototype`), the recorded property on an object. -/
def optUrl : JSValue → JSValue
  | .obj u => u
  | _ => .undefined

/-- The expression `a || b`. -/
def jsOr (a b : JSValue) : JSValue :=
  if truthy a then a else b

/-! ## The candidate pool -/

/-- A pool entry `{ url, score }`. -/
structure Candidate where
  url : JSString
  score : ℤ
  deriving DecidableEq, Repr

/-- The `Map` named `pool`: its entries in insertion order. -/
abbrev Pool := List (JSString × Candidate)

/-- The method `Map.prototype.has`. -/
def Pool.has (pool : Pool) (k : JSString) : Bool :=
  pool.any (fun e => e.1 == k)

/-- The method `Map.prototype.set`: the value of an existing key is replaced in place, a
new key is appended. -/
def Pool.set (pool : Pool) (k : JSString) (v : Candidate) : Pool :=
  match pool with
  | [] => [(k, v)]
  | e :: rest => if e.1 = k then (e.1, v) :: rest else e :: Pool.set rest k v

/-- The method `Map.prototype.values`, spread into an array. -/
def Pool.values (pool : Pool) : List Candidate :=
  pool.map Prod.snd

/-- The accessor `Map.prototype.size`. -/
def Pool.size (pool : Pool) : Nat :=
  pool.length

/-- The function `collect(url)`:
`if (!url || !url.includes('.m3u8')) return;`
`if (!pool.has(url)) pool.set(url, { url, score: score(url) });`
The result is the pool after the call, or the exception the call throws
(`url.includes` is not callable when `url` is a truthy value that is not a string). -/
def collect (url : JSValue) (pool : Pool) : Except JSError Pool :=
  if !truthy url then .ok pool
  else
    match url with
    | .str s =>
      if !includes s (lit ".m3u8") then .ok pool
      else if !pool.has s then .ok (pool.set s { url := s, score := score s })
      else .ok pool
    | _ => .error .typeError

/-- A run of `collect` over a sequence of observed values, from a given pool. -/
def collectAll : List JSValue → Pool → Except JSError Pool
  | [], pool => .ok pool
  | u :: rest, pool =>
    match collect u pool with
    | .error e => .error e
    | .ok pool' => collectAll rest pool'

/-! ## The interceptors -/

/-- A call of an original (unwrapped) entry point, with its `this` and arguments. -/
inductive Call where
  | fetch (thisArg : JSValue) (args : List JSValue) : Call
  | open (thisArg : JSValue) (args : List JSValue) : Call
  deriving DecidableEq, Repr

/-- The script state together with the log of calls made to the original
implementations `_fetch` and `_open`, oldest first. -/
structure World where
  pool : Pool
  calls : List Call
  deriving DecidableEq, Repr

/-- The wrapper installed as `window.fetch`:
`collect(args[0]?.url || args[0]); return _fetch.apply(this, args);`
where `result` gives what the original returns for a call. -/
def fetchWrapper {ρ : Type} (result : Call → ρ) (thisArg : JSValue) (args : List JSValue)
    (w : World) : Except JSError (ρ × World) :=
  let a0 := args.getD 0 .undefined
  match collect (jsOr (optUrl a0) a0) w.pool with
  | .error e => .error e
  | .ok pool' =>
    .ok (result (.fetch thisArg args),
      { pool := pool', calls := w.calls ++ [.fetch thisArg args] })

/-- The wrapper installed as `XMLHttpRequest.prototype.open`:
`collect(url); return _open.apply(this, arguments);` with `url` the second argument. -/
def openWrapper {ρ : Type} (result : Call → ρ) (thisArg : JSValue) (args : List JSValue)
    (w : World) : Except JSError (ρ × World) :=
  match collect (args.getD 1 .undefined) w.pool with
  | .error e => .error e
  | .ok pool' =>
    .ok (result (.open thisArg args),
      { pool := pool', calls := w.calls ++ [.open thisArg args] })

/-! ## The title resolver -/

/-- A DOM element, as far as the script reads it. -/
structure Element where
  innerText : JSString
  deriving DecidableEq, Repr

/-- The `document`, as far as the script reads it. -/
structure Document where
  querySelector : String → Option Element
  title : JSString

/-- The array `selectors` of `getTitle`. -/
def selectors : List String := ["h1", ".course-title", ".lesson-title", ".title"]

/-- A code unit of the class `[-_｜|]`. -/
def isSeparator (c : Nat) : Bool :=
  c == 0x2D || c == 0x5F || c == 0xFF5C || c == 0x7C

/-- A `LineTerminator` code unit, the ones `.` does not match. -/
def isLineTerminator (c : Nat) : Bool :=
  c == 0x0A || c == 0x0D || c == 0x2028 || c == 0x2029

/-- The call `s.replace(/[-_｜|].*/, '')`: the leftmost separator and the longest
run of non-line-terminators after it are removed. -/
def replaceSeparatorTail : JSString → JSString
  | [] => []
  | c :: s =>
    if isSeparator c then s.dropWhile (fun d => !isLineTerminator d)
    else c :: replaceSeparatorTail s

/-- The `for (const sel of selectors)` loop of `getTitle`: the value it returns,
if it returns. -/
def fallbackLoop (document : Document) : List String → Option JSString
  | [] => none
  | sel :: rest =>
    match document.querySelector sel with
    | some el =>
      if (trim el.innerText).length > 2 then some (trim el.innerText)
      else fallbackLoop document rest
    | none => fallbackLoop document rest

/-- The function `getTitle()`. -/
def getTitle (document : Document) : JSString :=
  let afterPrimary : JSString :=
    match fallbackLoop document selectors with
    | some t => t
    | none => trim (replaceSeparatorTail document.title)
  match document.querySelector ".title-row .title.new_title" with
  | some titleEl =>
    if (trim titleEl.innerText).length > 0 then trim titleEl.innerText else afterPrimary
  | none => afterPrimary

/-! ## JSON -/

/-- The record `{ title, m3u8 }`. -/
structure ExportRecord where
  title : JSString
  m3u8 : JSString
  deriving DecidableEq, Repr

/-- A lower-case hexadecimal digit. -/
def hexDigit (n : Nat) : Nat :=
  if n % 16 < 10 then 48 + n % 16 else 87 + n % 16

/-- The escape `\uXXXX` of a code unit. -/
def unicodeEscape (c : Nat) : JSString :=
  [0x5C, 0x75, hexDigit (c / 4096), hexDigit (c / 256), hexDigit (c / 16), hexDigit c]

/-- The escape of a code unit that is not a surrogate, as in `QuoteJSONString`. -/
def escapeUnit (c : Nat) : JSString :=
  if c = 0x08 then [0x5C, 0x62]
  else if c = 0x09 then [0x5C, 0x74]
  else if c = 0x0A then [0x5C, 0x6E]
  else if c = 0x0C then [0x5C, 0x66]
  else if c = 0x0D then [0x5C, 0x72]
  else if c = 0x22 then [0x5C, 0x22]
  else if c = 0x5C then [0x5C, 0x5C]
  else if c < 0x20 then unicodeEscape c
  else [c]

/-- The body of `QuoteJSONString`: a surrogate pair is kept, a lone surrogate is
escaped. -/
def quoteBody : JSString → JSString
  | [] => []
  | [c] =>
    if 0xD800 ≤ c ∧ c ≤ 0xDFFF then unicodeEscape c else escapeUnit c
  | c :: d :: rest =>
    if 0xD800 ≤ c ∧ c ≤ 0xDBFF then
      if 0xDC00 ≤ d ∧ d ≤ 0xDFFF then c :: d :: quoteBody rest
      else unicodeEscape c ++ quoteBody (d :: rest)
    else if 0xDC00 ≤ c ∧ c ≤ 0xDFFF then unicodeEscape c ++ quoteBody (d :: rest)
    else escapeUnit c ++ quoteBody (d :: rest)

/-- The abstract operation `QuoteJSONString`. -/
def quoteJSONString (s : JSString) : JSString :=
  [0x22] ++ quoteBody s ++ [0x22]

/-- One `{ title, m3u8 }` object inside the array, serialized with a gap of two
spaces. -/
def stringifyRecord (r : ExportRecord) : JSString :=
  lit "\x7b\n    \"title\": " ++ quoteJSONString r.title ++
  lit ",\n    \"m3u8\": " ++ quoteJSONString r.m3u8 ++ lit "\n  \x7d"

/-- The call `JSON.stringify(data, null, 2)` for an array of records. -/
def stringify (data : List ExportRecord) : JSString :=
  match data with
  | [] => lit "[]"
  | _ :: _ => lit "[\n  " ++ (lit ",\n  ").intercalate (data.map stringifyRecord) ++ lit "\n]"

/-! ## The export action -/

/-- A `Blob`: its parts and its MIME type. -/
structure Blob where
  parts : List JSString
  type : JSString
  deriving DecidableEq, Repr

/-- The host environment of the click handler. -/
structure Host where
  document : Document
  createObjectURL : Blob → JSString

/-- The calls the click handler makes, in order. -/
inductive Effect where
  | alert (message : JSString) : Effect
  | getTitle : Effect
  | newBlob (blob : Blob) : Effect
  | createObjectURL (blob : Blob) : Effect
  | GM_download (url : JSString) (name : JSString) : Effect
  deriving DecidableEq, Repr

/-- The comparator `(a, b) => b.score - a.score`. -/
def comparator (a b : Candidate) : ℤ :=
  b.score - a.score

/-- The method `Array.prototype.sort` with that comparator.  The specification of `sort`
requires a stable sort, and for a consistent comparator the stably sorted array
is unique; insertion sort computes it. -/
def sort (values : List Candidate) : List Candidate :=
  values.insertionSort (fun a b => comparator a b ≤ 0)

/-- The expression `[...pool.values()].sort((a, b) => b.score - a.score)[0]`;
`none` stands for `undefined`. -/
def best (pool : Pool) : Option Candidate :=
  (sort pool.values).head?

/-- The handler `btn.onclick`: the trace of calls it makes, or the exception it
throws. -/
def onclick (host : Host) (pool : Pool) : Except JSError (List Effect) :=
  if pool.size = 0 then .ok [.alert (lit "请先播放课程")]
  else
    match best pool with
    | none => .error .typeError
    | some b =>
      let data : List ExportRecord := [{ title := getTitle host.document, m3u8 := b.url }]
      let blob : Blob := { parts := [stringify data], type := lit "application/json" }
      let url := host.createObjectURL blob
      .ok [.getTitle, .newBlob blob, .createObjectURL blob,
        .GM_download url (lit "m3u8_list.json")]

/-! ## Rounding -/

theorem roundHalfEven_cases (t : ℚ) :
    roundHalfEven t = ⌊t⌋ ∨ (roundHalfEven t = ⌊t⌋ + 1 ∧ (1 : ℚ) / 2 ≤ t - ⌊t⌋) := by
  unfold roundHalfEven
  simp only
  split_ifs with h1 h2 h3
  · exact Or.inl rfl
  · exact Or.inr ⟨rfl, le_of_lt h2⟩
  · exact Or.inl rfl
  · exact Or.inr ⟨rfl, not_lt.mp h1⟩

theorem roundHalfEven_between (t : ℚ) (a b : ℤ) (ha : (a : ℚ) ≤ t) (hb : t ≤ (b : ℚ)) :
    a ≤ roundHalfEven t ∧ roundHalfEven t ≤ b := by
  have hfa : a ≤ ⌊t⌋ := Int.le_floor.mpr ha
  have hfb : ⌊t⌋ ≤ b := by
    have : ⌊t⌋ ≤ ⌊(b : ℚ)⌋ := Int.floor_mono hb
    simpa using this
  rcases roundHalfEven_cases t with h | ⟨h, hh⟩
  · rw [h]; exact ⟨hfa, hfb⟩
  · rw [h]
    refine ⟨by omega, ?_⟩
    have hlt : (⌊t⌋ : ℚ) < b := by linarith
    have : ⌊t⌋ < b := by exact_mod_cast hlt
    omega

theorem roundHalfEven_le_add_half (t : ℚ) : (roundHalfEven t : ℚ) ≤ t + 1 / 2 := by
  rcases roundHalfEven_cases t with h | ⟨h, hh⟩
  · rw [h]; have := Int.floor_le t; linarith
  · rw [h]; push_cast; linarith

/-- The unit in the last place of the binade of a positive `x` below `2 ^ (53 - k)`
divides `2 ^ (-k)`. -/
theorem ulp_dvd (x : ℚ) (k : ℕ) (hx0 : 0 < x) (hx : x < (2 : ℚ) ^ ((53 : ℤ) - k)) :
    ∃ m : ℕ, (2 : ℚ) ^ (Int.log 2 |x| - 52) * (2 : ℚ) ^ m = 1 / (2 : ℚ) ^ k := by
  have habs : |x| = x := abs_of_pos hx0
  rw [habs]
  have h1 : (2 : ℚ) ^ Int.log 2 x ≤ x := by
    have := Int.zpow_log_le_self (b := 2) (r := x) (by norm_num) hx0
    simpa using this
  have h2 : (2 : ℚ) ^ Int.log 2 x < (2 : ℚ) ^ ((53 : ℤ) - k) := lt_of_le_of_lt h1 hx
  have h3 : Int.log 2 x < (53 : ℤ) - k := (zpow_lt_zpow_iff_right₀ (by norm_num)).mp h2
  refine ⟨((52 : ℤ) - k - Int.log 2 x).toNat, ?_⟩
  have h4 : ((((52 : ℤ) - k - Int.log 2 x).toNat : ℕ) : ℤ) = (52 : ℤ) - k - Int.log 2 x :=
    Int.toNat_of_nonneg (by omega)
  rw [← zpow_natCast, h4, ← zpow_add₀ (by norm_num), one_div, ← zpow_natCast, ← zpow_neg]
  congr 1
  ring

theorem fl_between (x : ℚ) (k : ℕ) (a b : ℤ) (hx0 : 0 ≤ x)
    (hx : x < (2 : ℚ) ^ ((53 : ℤ) - k))
    (ha : (a : ℚ) / 2 ^ k ≤ x) (hb : x ≤ (b : ℚ) / 2 ^ k) :
    (a : ℚ) / 2 ^ k ≤ fl x ∧ fl x ≤ (b : ℚ) / 2 ^ k := by
  rcases eq_or_lt_of_le hx0 with h0 | hpos
  · have : fl x = 0 := by simp [fl, ← h0]
    rw [this]; rw [← h0] at ha hb; exact ⟨ha, hb⟩
  · obtain ⟨m, hm⟩ := ulp_dvd x k hpos hx
    have hne : x ≠ 0 := ne_of_gt hpos
    simp only [fl, hne, if_false]
    set u : ℚ := (2 : ℚ) ^ (Int.log 2 |x| - 52) with hu
    have hu0 : 0 < u := zpow_pos (by norm_num) _
    have hk0 : (0 : ℚ) < 2 ^ k := pow_pos (by norm_num) _
    have hm0 : (0 : ℚ) < 2 ^ m := pow_pos (by norm_num) _
    have hinv : (1 : ℚ) / 2 ^ k = u * 2 ^ m := hm.symm
    have hA : ((a * 2 ^ m : ℤ) : ℚ) ≤ x / u := by
      rw [le_div_iff₀ hu0]; push_cast
      calc (a : ℚ) * 2 ^ m * u = a * (u * 2 ^ m) := by ring
        _ = a / 2 ^ k := by rw [← hinv]; ring
        _ ≤ x := ha
    have hB : x / u ≤ ((b * 2 ^ m : ℤ) : ℚ) := by
      rw [div_le_iff₀ hu0]; push_cast
      calc x ≤ b / 2 ^ k := hb
        _ = b * (u * 2 ^ m) := by rw [← hinv]; ring
        _ = (b : ℚ) * 2 ^ m * u := by ring
    obtain ⟨h1, h2⟩ := roundHalfEven_between (x / u) _ _ hA hB
    have h1q : ((a * 2 ^ m : ℤ) : ℚ) ≤ (roundHalfEven (x / u) : ℚ) := by exact_mod_cast h1
    have h2q : (roundHalfEven (x / u) : ℚ) ≤ ((b * 2 ^ m : ℤ) : ℚ) := by exact_mod_cast h2
    constructor
    · calc (a : ℚ) / 2 ^ k = a * (u * 2 ^ m) := by rw [← hinv]; ring
        _ = ((a * 2 ^ m : ℤ) : ℚ) * u := by push_cast; ring
        _ ≤ roundHalfEven (x / u) * u := mul_le_mul_of_nonneg_right h1q hu0.le
    · calc (roundHalfEven (x / u) : ℚ) * u ≤ ((b * 2 ^ m : ℤ) : ℚ) * u :=
            mul_le_mul_of_nonneg_right h2q hu0.le
        _ = b * (u * 2 ^ m) := by push_cast; ring
        _ = (b : ℚ) / 2 ^ k := by rw [← hinv]; ring

theorem fl_tenth_high (x : ℚ) (q : ℤ) (h48 : (2 : ℚ) ^ (48 : ℕ) ≤ x)
    (h50 : x < (2 : ℚ) ^ (50 : ℕ)) (hq : (q : ℚ) ≤ x) (hx : x ≤ q + 9 / 10) :
    (q : ℚ) ≤ fl x ∧ fl x ≤ q + 7 / 8 := by
  have hpos : 0 < x := lt_of_lt_of_le (by norm_num) h48
  constructor
  · have h := (fl_between x 3 (8 * q) (8 * q + 8) hpos.le (by norm_num; linarith)
      (by push_cast; linarith) (by push_cast; linarith)).1
    push_cast at h; linarith
  · have hne : x ≠ 0 := ne_of_gt hpos
    have habs : |x| = x := abs_of_pos hpos
    have hlo : (48 : ℤ) ≤ Int.log 2 x := by
      rw [← Int.zpow_le_iff_le_log (by norm_num) hpos]
      norm_num; linarith
    have hhi : Int.log 2 x < (50 : ℤ) := by
      rw [← Int.lt_zpow_iff_log_lt (by norm_num) hpos]
      norm_num; linarith
    simp only [fl, hne, if_false, habs]
    have hcase : Int.log 2 x = 48 ∨ Int.log 2 x = 49 := by omega
    rcases hcase with he | he
    · rw [he]
      have hu : (2 : ℚ) ^ ((48 : ℤ) - 52) = 1 / 16 := by norm_num [zpow_neg]
      rw [hu]
      have h1 := roundHalfEven_le_add_half (x / (1 / 16))
      have h2 : (roundHalfEven (x / (1 / 16)) : ℚ) < ((16 * q + 15 : ℤ) : ℚ) := by
        push_cast
        have : x / (1 / 16) = 16 * x := by ring
        rw [this] at h1 ⊢
        linarith
      have h3 : roundHalfEven (x / (1 / 16)) ≤ 16 * q + 14 := by
        have : roundHalfEven (x / (1 / 16)) < 16 * q + 15 := by exact_mod_cast h2
        omega
      have h4 : (roundHalfEven (x / (1 / 16)) : ℚ) ≤ ((16 * q + 14 : ℤ) : ℚ) := by
        exact_mod_cast h3
      push_cast at h4
      linarith
    · rw [he]
      have hu : (2 : ℚ) ^ ((49 : ℤ) - 52) = 1 / 8 := by norm_num [zpow_neg]
      rw [hu]
      have h1 := roundHalfEven_le_add_half (x / (1 / 8))
      have h2 : (roundHalfEven (x / (1 / 8)) : ℚ) < ((8 * q + 8 : ℤ) : ℚ) := by
        push_cast
        have : x / (1 / 8) = 8 * x := by ring
        rw [this] at h1 ⊢
        linarith
      have h3 : roundHalfEven (x / (1 / 8)) ≤ 8 * q + 7 := by
        have : roundHalfEven (x / (1 / 8)) < 8 * q + 8 := by exact_mod_cast h2
        omega
      have h4 : (roundHalfEven (x / (1 / 8)) : ℚ) ≤ ((8 * q + 7 : ℤ) : ℚ) := by
        exact_mod_cast h3
      push_cast at h4
      linarith

/-- Adding an integer constant to a value within `(2^k-1)/2^k` above an integer. -/
theorem fl_add_const (k : ℕ) (n c : ℤ) (y : ℚ) (hn : 0 ≤ n) (hc : 0 ≤ c)
    (hlo : (n : ℚ) ≤ y) (hhi : y ≤ n + (2 ^ k - 1) / 2 ^ k)
    (hbig : ((n + c + 1 : ℤ) : ℚ) ≤ (2 : ℚ) ^ ((53 : ℤ) - k)) :
    ((n + c : ℤ) : ℚ) ≤ fl (y + c) ∧ fl (y + c) ≤ ((n + c : ℤ) : ℚ) + (2 ^ k - 1) / 2 ^ k := by
  have hk0 : (0 : ℚ) < 2 ^ k := pow_pos (by norm_num) _
  have hfrac : ((2 : ℚ) ^ k - 1) / 2 ^ k < 1 := by
    rw [div_lt_one hk0]; linarith
  have hn0 : (0 : ℚ) ≤ n := by exact_mod_cast hn
  have hc0 : (0 : ℚ) ≤ c := by exact_mod_cast hc
  have h := fl_between (y + c) k ((n + c) * 2 ^ k) ((n + c) * 2 ^ k + (2 ^ k - 1))
    (by linarith) (by push_cast at hbig; linarith)
    (by push_cast; rw [mul_div_assoc, div_self hk0.ne']; linarith)
    (by push_cast; rw [add_div, mul_div_assoc, div_self hk0.ne']; linarith)
  push_cast at h ⊢
  rw [add_div, mul_div_assoc, div_self hk0.ne', mul_one] at h
  constructor
  · linarith [h.1]
  · linarith [h.2]

theorem floor_of_between (k : ℕ) (n : ℤ) (y : ℚ) (hlo : (n : ℚ) ≤ y)
    (hhi : y ≤ n + (2 ^ k - 1) / 2 ^ k) : ⌊y⌋ = n := by
  have hk0 : (0 : ℚ) < 2 ^ k := pow_pos (by norm_num) _
  have hfrac : ((2 : ℚ) ^ k - 1) / 2 ^ k < 1 := by
    rw [div_lt_one hk0]; linarith
  rw [Int.floor_eq_iff]
  exact ⟨hlo, by linarith⟩

/-- The additions and the final `Math.floor` of `score`, started from a value
that lies within `(2^k-1)/2^k` above the integer `q`. -/
theorem score_tail (k : ℕ) (q : ℤ) (y : ℚ) (b1 b2 : Bool) (hq : 0 ≤ q)
    (hlo : (q : ℚ) ≤ y) (hhi : y ≤ q + (2 ^ k - 1) / 2 ^ k)
    (hbig : ((q + 51 : ℤ) : ℚ) ≤ (2 : ℚ) ^ ((53 : ℤ) - k)) :
    ⌊(if b2 then fl ((if b1 then fl (y + 30) else y) + 20)
        else (if b1 then fl (y + 30) else y))⌋
      = q + (if b1 then 30 else 0) + (if b2 then 20 else 0) := by
  push_cast at hbig
  have s1 : ((q + (if b1 then 30 else 0) : ℤ) : ℚ) ≤ (if b1 then fl (y + 30) else y) ∧
      (if b1 then fl (y + 30) else y)
        ≤ ((q + (if b1 then 30 else 0) : ℤ) : ℚ) + (2 ^ k - 1) / 2 ^ k := by
    cases b1
    · simpa using ⟨hlo, hhi⟩
    · have := fl_add_const k q 30 y hq (by norm_num) hlo hhi (by push_cast; linarith)
      simpa using this
  cases b2
  · simp only [Bool.false_eq_true, if_false, add_zero]
    exact floor_of_between k _ _ s1.1 s1.2
  · simp only [if_true]
    have := fl_add_const k (q + (if b1 then 30 else 0)) 20 _ (by split <;> omega) (by norm_num)
      s1.1 s1.2 (by cases b1 <;> (push_cast; simp; linarith))
    exact floor_of_between k _ _ this.1 (by simpa using this.2)

/-! ## score -/

/-- The closed form of `score` on a string of admissible length. -/
theorem score_closed_form (url : JSString) (hlen : url.length ≤ 2 ^ 53 - 1) :
    score url = ((url.length / 10 : ℕ) : ℤ)
      + (if testAlternationCI masterWords url then 30 else 0)
      + (if testAlternationCI tokenWords url then 20 else 0) := by
  have hdm := Nat.div_add_mod url.length 10
  have hmod := Nat.mod_lt url.length (show 0 < 10 by norm_num)
  set L := url.length with hL
  set q : ℕ := L / 10 with hqdef
  have hLq : (L : ℚ) = 10 * q + ((L % 10 : ℕ) : ℚ) := by exact_mod_cast hdm.symm
  have hr : ((L % 10 : ℕ) : ℚ) ≤ 9 := by
    have : L % 10 ≤ 9 := by omega
    exact_mod_cast this
  have hr0 : (0 : ℚ) ≤ ((L % 10 : ℕ) : ℚ) := Nat.cast_nonneg _
  have hxlo : ((q : ℤ) : ℚ) ≤ (L : ℚ) / 10 := by
    push_cast; rw [le_div_iff₀ (by norm_num)]; linarith
  have hxhi : (L : ℚ) / 10 ≤ ((q : ℤ) : ℚ) + 9 / 10 := by
    push_cast; rw [div_le_iff₀ (by norm_num)]; linarith
  have hq0 : (0 : ℤ) ≤ (q : ℤ) := Int.natCast_nonneg q
  have hqbig : q + 51 ≤ 2 ^ 50 := by omega
  unfold score
  simp only
  by_cases hsmall : q + 51 ≤ 2 ^ 49
  · have hsq : ((q : ℤ) : ℚ) + 51 ≤ 2 ^ 49 := by exact_mod_cast hsmall
    have h1 := fl_between ((L : ℚ) / 10) 4 (16 * q) (16 * q + 15)
      (by positivity) (by norm_num; linarith) (by push_cast; linarith) (by push_cast; linarith)
    have h1lo : ((q : ℤ) : ℚ) ≤ fl ((L : ℚ) / 10) := by
      have := h1.1; push_cast at this ⊢; linarith
    have h1hi : fl ((L : ℚ) / 10) ≤ ((q : ℤ) : ℚ) + (2 ^ 4 - 1) / 2 ^ 4 := by
      have := h1.2; push_cast at this ⊢; linarith
    exact score_tail 4 q _ _ _ hq0 h1lo h1hi (by push_cast; norm_num at hsq ⊢; linarith)
  · have hbq : (2 : ℚ) ^ 49 < ((q : ℤ) : ℚ) + 51 := by
      have : 2 ^ 49 < q + 51 := by omega
      exact_mod_cast this
    have hsq : ((q : ℤ) : ℚ) + 51 ≤ 2 ^ 50 := by exact_mod_cast hqbig
    have h1 := fl_tenth_high ((L : ℚ) / 10) q (by norm_num at hbq ⊢; linarith)
      (by norm_num at hsq ⊢; linarith) hxlo hxhi
    have h1hi : fl ((L : ℚ) / 10) ≤ ((q : ℤ) : ℚ) + (2 ^ 3 - 1) / 2 ^ 3 := by
      have := h1.2; norm_num at this ⊢; linarith
    exact score_tail 3 q _ _ _ hq0 h1.1 h1hi (by push_cast; norm_num at hsq ⊢; linarith)

/-! ## Case-insensitive matching against the specification's reading -/

theorem canonicalize_beq_iff (a b : Nat) (ha : 97 ≤ a ∧ a ≤ 122) :
    (canonicalize a == canonicalize b) = true ↔ toLowerASCII b = a := by
  simp only [beq_iff_eq, canonicalize, toLowerASCII]
  split_ifs <;> omega

theorem startsWithCI_iff (p s : JSString) (hp : IsLowerWord p) :
    startsWithCI p s = true ↔
      ∃ mid post : JSString, s = mid ++ post ∧ mid.map toLowerASCII = p := by
  induction p generalizing s with
  | nil =>
    simp only [startsWithCI, true_iff]
    exact ⟨[], s, rfl, rfl⟩
  | cons a p ih =>
    have hp' : IsLowerWord p := fun c hc => hp c (List.mem_cons_of_mem _ hc)
    have ha := hp a (List.mem_cons_self _ _)
    cases s with
    | nil =>
      simp only [startsWithCI]
      constructor
      · intro h; cases h
      · rintro ⟨mid, post, h1, h2⟩
        have : mid = [] := by
          cases mid with
          | nil => rfl
          | cons x xs => cases h1
        subst this; cases h2
    | cons b s =>
      simp only [startsWithCI, Bool.and_eq_true, canonicalize_beq_iff a b ha, ih s hp']
      constructor
      · rintro ⟨hb, mid, post, h1, h2⟩
        exact ⟨b :: mid, post, by rw [h1]; rfl, by simp [hb, h2]⟩
      · rintro ⟨mid, post, h1, h2⟩
        cases mid with
        | nil => cases h2
        | cons x xs =>
          simp only [List.cons_append, List.cons.injEq] at h1
          simp only [List.map_cons, List.cons.injEq] at h2
          obtain ⟨rfl, h1⟩ := h1
          exact ⟨h2.1, xs, post, h1, h2.2⟩

theorem includesCI_iff (s p : JSString) (hp : IsLowerWord p) :
    includesCI s p = true ↔ ContainsIgnoringCase s p := by
  induction s with
  | nil =>
    simp only [includesCI, startsWithCI_iff p [] hp, ContainsIgnoringCase]
    constructor
    · rintro ⟨mid, post, h1, h2⟩
      exact ⟨[], mid, post, by simpa using h1, h2⟩
    · rintro ⟨pre, mid, post, h1, h2⟩
      have h := congrArg List.length h1
      simp only [List.length_nil, List.length_append] at h
      have hpre : pre = [] := List.length_eq_zero.mp (by omega)
      subst hpre
      exact ⟨mid, post, by simpa using h1, h2⟩
  | cons c s ih =>
    simp only [includesCI, Bool.or_eq_true, startsWithCI_iff p (c :: s) hp, ih,
      ContainsIgnoringCase]
    constructor
    · rintro (⟨mid, post, h1, h2⟩ | ⟨pre, mid, post, h1, h2⟩)
      · exact ⟨[], mid, post, by simpa using h1, h2⟩
      · exact ⟨c :: pre, mid, post, by simp [h1], h2⟩
    · rintro ⟨pre, mid, post, h1, h2⟩
      cases pre with
      | nil => exact Or.inl ⟨mid, post, by simpa using h1, h2⟩
      | cons x xs =>
        simp only [List.cons_append, List.cons.injEq] at h1
        exact Or.inr ⟨xs, mid, post, by simpa using h1.2, h2⟩

theorem testAlternationCI_iff (alts : List JSString) (s : JSString)
    (h : ∀ w ∈ alts, IsLowerWord w) :
    testAlternationCI alts s = true ↔ ∃ w ∈ alts, ContainsIgnoringCase s w := by
  simp only [testAlternationCI, List.any_eq_true]
  constructor
  · rintro ⟨w, hw, hc⟩
    exact ⟨w, hw, (includesCI_iff s w (h w hw)).mp hc⟩
  · rintro ⟨w, hw, hc⟩
    exact ⟨w, hw, (includesCI_iff s w (h w hw)).mpr hc⟩

theorem masterWords_lower : ∀ w ∈ masterWords, IsLowerWord w := by
  unfold IsLowerWord; decide

theorem tokenWords_lower : ∀ w ∈ tokenWords, IsLowerWord w := by
  unfold IsLowerWord; decide

/-- C1: for every string `url` (a JavaScript string has at most `2^53 - 1` code
units), `score url` is `floor(length / 10)`, plus 30 when `url` contains one of
"master", "index", "playlist" in any letter case, plus 20 when it contains one of
"token", "sign", "expires" in any letter case: flooring after the additions, as
the code does on binary64 numbers, gives the integer the specification states. -/
theorem score_eq_floor_plus_bonuses (url : JSString) (hlen : url.length ≤ 2 ^ 53 - 1) :
    (testAlternationCI masterWords url = true ↔
        ∃ w ∈ [lit "master", lit "index", lit "playlist"], ContainsIgnoringCase url w) ∧
    (testAlternationCI tokenWords url = true ↔
        ∃ w ∈ [lit "token", lit "sign", lit "expires"], ContainsIgnoringCase url w) ∧
    score url = ((url.length / 10 : ℕ) : ℤ)
      + (if testAlternationCI masterWords url then 30 else 0)
      + (if testAlternationCI tokenWords url then 20 else 0) :=
  ⟨testAlternationCI_iff masterWords url masterWords_lower,
    testAlternationCI_iff tokenWords url tokenWords_lower,
    score_closed_form url hlen⟩

/-- C1 at the URL `https://a.b/Master.m3u8?sign=1` (30 code units, both bonuses):
the score is 3 + 30 + 20. -/
theorem score_eq_floor_plus_bonuses_witness :
    (lit "https://a.b/Master.m3u8?sign=1").length ≤ 2 ^ 53 - 1 ∧
    score (lit "https://a.b/Master.m3u8?sign=1") = 53 := by
  refine ⟨by decide, ?_⟩
  rw [(score_eq_floor_plus_bonuses (lit "https://a.b/Master.m3u8?sign=1") (by decide)).2.2]
  decide

/-- C8, as stated, fails: "master" and "indexx" have equal length, the first
contains "master" and the second does not, and both score 30. -/
theorem score_master_not_strict :
    (lit "master").length = (lit "indexx").length ∧
    includes (lit "master") (lit "master") = true ∧
    includes (lit "indexx") (lit "master") = false ∧
    score (lit "master") = 30 ∧ score (lit "indexx") = 30 ∧
    ¬ (score (lit "indexx") < score (lit "master")) := by
  have h1 : score (lit "master") = 30 := by
    rw [score_closed_form _ (by decide)]; decide
  have h2 : score (lit "indexx") = 30 := by
    rw [score_closed_form _ (by decide)]; decide
  refine ⟨by decide, by decide, by decide, h1, h2, ?_⟩
  rw [h1, h2]; decide

/-- C8, amended: of two URLs of equal length, one containing "master" in any
letter case and the other containing none of "master", "index", "playlist" in
any letter case, the first scores strictly higher. -/
theorem score_master_gt (a b : JSString) (hlen : a.length = b.length)
    (hmax : a.length ≤ 2 ^ 53 - 1)
    (ha : ContainsIgnoringCase a (lit "master"))
    (hb : ∀ w ∈ [lit "master", lit "index", lit "playlist"], ¬ ContainsIgnoringCase b w) :
    score b < score a := by
  have hta : testAlternationCI masterWords a = true :=
    (testAlternationCI_iff masterWords a masterWords_lower).mpr
      ⟨lit "master", by decide, ha⟩
  have htb : testAlternationCI masterWords b = false := by
    cases h : testAlternationCI masterWords b
    · rfl
    · obtain ⟨w, hw, hc⟩ := (testAlternationCI_iff masterWords b masterWords_lower).mp h
      exact absurd hc (hb w hw)
  rw [score_closed_form a hmax, score_closed_form b (hlen ▸ hmax), hta, htb, hlen]
  simp only [if_true, Bool.false_eq_true, if_false]
  split_ifs <;> omega

/-- C8 amended, at "master.m3u8" against "abcdef.m3u8". -/
theorem score_master_gt_witness :
    score (lit "abcdef.m3u8") < score (lit "master.m3u8") :=
  score_master_gt (lit "master.m3u8") (lit "abcdef.m3u8") (by decide) (by decide)
    ⟨[], lit "master", lit ".m3u8", by decide, by decide⟩
    (fun w hw hc => by
      have h := (testAlternationCI_iff masterWords (lit "abcdef.m3u8") masterWords_lower).mpr
        ⟨w, hw, hc⟩
      revert h
      decide)

/-! ## The pool -/

theorem Pool.has_iff_mem_keys (pool : Pool) (k : JSString) :
    pool.has k = true ↔ k ∈ pool.map Prod.fst := by
  simp only [Pool.has, List.any_eq_true, beq_iff_eq, List.mem_map]

theorem Pool.set_of_not_has (pool : Pool) (k : JSString) (v : Candidate)
    (h : pool.has k = false) : pool.set k v = pool ++ [(k, v)] := by
  induction pool with
  | nil => rfl
  | cons e rest ih =>
    simp only [Pool.has, List.any_cons, Bool.or_eq_false_iff, beq_eq_false_iff_ne] at h
    have hrest : Pool.has rest k = false := h.2
    simp only [Pool.set, if_neg h.1, ih hrest, List.cons_append]

/-- The effect of `collect` on a string, in one formula. -/
theorem collect_str (s : JSString) (pool : Pool) :
    collect (.str s) pool =
      .ok (if includes s (lit ".m3u8") = true ∧ pool.has s = false
        then pool ++ [(s, { url := s, score := score s })] else pool) := by
  unfold collect
  by_cases hs : s = []
  · subst hs
    have : includes [] (lit ".m3u8") = false := by decide
    simp [truthy, this]
  · have ht : truthy (.str s) = true := by
      cases s with
      | nil => exact absurd rfl hs
      | cons c t => rfl
    simp only [ht, Bool.not_true, Bool.false_eq_true, if_false]
    cases hi : includes s (lit ".m3u8")
    · simp
    · cases hh : pool.has s
      · simp [Pool.set_of_not_has pool s _ hh]
      · simp

/-- The invariant of the pool. -/
theorem collect_str_invariant (s : JSString) (pool : Pool)
    (h1 : ∀ e ∈ pool, includes e.1 (lit ".m3u8") = true ∧
      e.2 = { url := e.1, score := score e.1 })
    (h2 : (pool.map Prod.fst).Nodup) :
    ∃ pool', collect (.str s) pool = .ok pool' ∧
      (∀ e ∈ pool', includes e.1 (lit ".m3u8") = true ∧
        e.2 = { url := e.1, score := score e.1 }) ∧
      (pool'.map Prod.fst).Nodup := by
  refine ⟨_, collect_str s pool, ?_⟩
  split_ifs with hc
  · constructor
    · intro e he
      rcases List.mem_append.mp he with he | he
      · exact h1 e he
      · simp only [List.mem_singleton] at he
        subst he
        exact ⟨hc.1, rfl⟩
    · rw [List.map_append, List.nodup_append]
      refine ⟨h2, by simp, ?_⟩
      intro k hk hk'
      simp only [List.map_cons, List.map_nil, List.mem_singleton] at hk'
      subst hk'
      have := (Pool.has_iff_mem_keys pool k).mpr hk
      rw [hc.2] at this
      cases this
  · exact ⟨h1, h2⟩

theorem collectAll_str_invariant (urls : List JSString) (pool : Pool)
    (h1 : ∀ e ∈ pool, includes e.1 (lit ".m3u8") = true ∧
      e.2 = { url := e.1, score := score e.1 })
    (h2 : (pool.map Prod.fst).Nodup) :
    ∃ pool', collectAll (urls.map JSValue.str) pool = .ok pool' ∧
      (∀ e ∈ pool', includes e.1 (lit ".m3u8") = true ∧
        e.2 = { url := e.1, score := score e.1 }) ∧
      (pool'.map Prod.fst).Nodup := by
  induction urls generalizing pool with
  | nil => exact ⟨pool, rfl, h1, h2⟩
  | cons u rest ih =>
    obtain ⟨p1, hp1, hi1, hi2⟩ := collect_str_invariant u pool h1 h2
    obtain ⟨p2, hp2, hj1, hj2⟩ := ih p1 hi1 hi2
    refine ⟨p2, ?_, hj1, hj2⟩
    simp only [List.map_cons, collectAll, hp1]
    exact hp2

/-- C3: `collect(url)` leaves the pool as it is when `url` is `undefined`, `null`
or the empty string, when it is a string without the substring ".m3u8", and when
it is a string that is already a key; and a second `collect` of the same string
leaves the pool the first call produced. -/
theorem collect_frame (pool : Pool) (url : JSValue)
    (h : url = .undefined ∨ url = .null ∨ url = .str [] ∨
      (∃ s, url = .str s ∧ includes s (lit ".m3u8") = false) ∨
      (∃ s, url = .str s ∧ pool.has s = true)) :
    collect url pool = .ok pool ∧
    ∀ s : JSString, ∃ p1, collect (.str s) pool = .ok p1 ∧ collect (.str s) p1 = .ok p1 := by
  constructor
  · rcases h with rfl | rfl | rfl | ⟨s, rfl, hs⟩ | ⟨s, rfl, hs⟩
    · rfl
    · rfl
    · rfl
    · rw [collect_str]; simp [hs]
    · rw [collect_str]; simp [hs]
  · intro s
    refine ⟨_, collect_str s pool, ?_⟩
    rw [collect_str]
    by_cases hc : includes s (lit ".m3u8") = true ∧ pool.has s = false
    · have hmem : s ∈ (pool ++ [(s, ({ url := s, score := score s } : Candidate))]).map
          Prod.fst := by simp
      have hhas := (Pool.has_iff_mem_keys _ s).mpr hmem
      simp only [if_pos hc, hhas, Bool.true_eq_false, and_false, if_false]
    · simp only [if_neg hc]

/-- C3 on the pool holding "a.m3u8", re-observing "a.m3u8". -/
theorem collect_frame_witness :
    collect (.str (lit "a.m3u8")) [(lit "a.m3u8", { url := lit "a.m3u8", score := 0 })]
      = .ok [(lit "a.m3u8", { url := lit "a.m3u8", score := 0 })] :=
  (collect_frame [(lit "a.m3u8", { url := lit "a.m3u8", score := 0 })]
    (.str (lit "a.m3u8"))
    (Or.inr (Or.inr (Or.inr (Or.inr ⟨lit "a.m3u8", rfl, by decide⟩))))).1

/-- C4: every pool reached from the empty pool by `collect` calls on strings is
reached without an exception, each of its keys contains ".m3u8", the entry under
key `k` is `{ url: k, score: score(k) }`, and no key occurs twice. -/
theorem collect_reachable_invariant (urls : List JSString) :
    ∃ pool, collectAll (urls.map JSValue.str) [] = .ok pool ∧
      (∀ e ∈ pool, includes e.1 (lit ".m3u8") = true ∧
        e.2 = { url := e.1, score := score e.1 }) ∧
      (pool.map Prod.fst).Nodup :=
  collectAll_str_invariant urls [] (by simp) (by simp)

/-! ## best -/

theorem sort_head (l : List Candidate) (hl : l ≠ []) :
    ∃ c, (sort l).head? = some c ∧ c ∈ l ∧ ∀ e ∈ l, e.score ≤ c.score := by
  induction l with
  | nil => exact absurd rfl hl
  | cons a t ih =>
    by_cases ht : t = []
    · subst ht
      exact ⟨a, rfl, by simp, by simp⟩
    · obtain ⟨c, hc, hmem, hmax⟩ := ih ht
      have hsort : sort (a :: t) =
          List.orderedInsert (fun a b => comparator a b ≤ 0) a (sort t) := rfl
      rw [hsort]
      cases hst : sort t with
      | nil => rw [hst] at hc; cases hc
      | cons x rest =>
        rw [hst] at hc
        simp only [List.head?_cons, Option.some.injEq] at hc
        subst hc
        simp only [List.orderedInsert]
        split_ifs with hr
        · refine ⟨a, rfl, by simp, ?_⟩
          intro e he
          simp only [comparator] at hr
          rcases List.mem_cons.mp he with rfl | he
          · exact le_refl _
          · have := hmax e he; omega
        · refine ⟨x, rfl, List.mem_cons_of_mem _ hmem, ?_⟩
          intro e he
          simp only [comparator] at hr
          rcases List.mem_cons.mp he with rfl | he
          · omega
          · exact hmax e he

/-- C2: on a non-empty pool the candidate selected at export time is an entry of
the pool whose score is at least the score of every entry; over the pool
`{a: 10, b: 50, c: 30}` it is `b`. -/
theorem best_is_maximum (pool : Pool) (h : pool ≠ []) :
    (∃ c, best pool = some c ∧ c ∈ pool.values ∧ ∀ e ∈ pool.values, e.score ≤ c.score) ∧
    best [(lit "a", { url := lit "a", score := 10 }), (lit "b", { url := lit "b", score := 50 }),
      (lit "c", { url := lit "c", score := 30 })] = some { url := lit "b", score := 50 } := by
  refine ⟨sort_head pool.values ?_, by decide⟩
  intro hv
  exact h (List.map_eq_nil_iff.mp hv)

/-- C2 on a two-entry pool with equal scores. -/
theorem best_is_maximum_witness :
    ∃ c, best [(lit "x", { url := lit "x", score := 7 }), (lit "y", { url := lit "y", score := 7 })]
        = some c ∧
      c ∈ Pool.values [(lit "x", { url := lit "x", score := 7 }),
        (lit "y", { url := lit "y", score := 7 })] ∧
      ∀ e ∈ Pool.values [(lit "x", { url := lit "x", score := 7 }),
        (lit "y", { url := lit "y", score := 7 })], e.score ≤ c.score :=
  (best_is_maximum [(lit "x", { url := lit "x", score := 7 }),
    (lit "y", { url := lit "y", score := 7 })] (by decide)).1

/-! ## The interceptors -/

/-- C5: the wrappers forward a call whose URL argument is a string, `undefined`,
`null`, or (for `fetch`) a request object with a non-empty string `url`: the
original is invoked once with the same `this` and arguments and its result is
returned.  On an object without a `url` property, such as a `URL` object, both
wrappers throw a `TypeError` before the original is reached. -/
theorem wrappers_forward_or_throw {ρ : Type} (result : Call → ρ) (thisArg : JSValue)
    (w : World) :
    (∀ s : JSString, ∃ pool',
      fetchWrapper result thisArg [.str s] w =
        .ok (result (.fetch thisArg [.str s]),
          { pool := pool', calls := w.calls ++ [.fetch thisArg [.str s]] })) ∧
    (∀ s : JSString, s ≠ [] → ∃ pool',
      fetchWrapper result thisArg [.obj (.str s)] w =
        .ok (result (.fetch thisArg [.obj (.str s)]),
          { pool := pool', calls := w.calls ++ [.fetch thisArg [.obj (.str s)]] })) ∧
    (∀ a : JSValue, a = .undefined ∨ a = .null →
      fetchWrapper result thisArg [a] w =
        .ok (result (.fetch thisArg [a]),
          { pool := w.pool, calls := w.calls ++ [.fetch thisArg [a]] })) ∧
    (∀ (m : JSValue) (s : JSString), ∃ pool',
      openWrapper result thisArg [m, .str s] w =
        .ok (result (.open thisArg [m, .str s]),
          { pool := pool', calls := w.calls ++ [.open thisArg [m, .str s]] })) ∧
    fetchWrapper result thisArg [.obj .undefined] w = .error .typeError ∧
    (∀ m : JSValue, openWrapper result thisArg [m, .obj .undefined] w = .error .typeError) := by
  refine ⟨?_, ?_, ?_, ?_, rfl, fun _ => rfl⟩
  · intro s
    refine ⟨(if includes s (lit ".m3u8") = true ∧ w.pool.has s = false
      then w.pool ++ [(s, { url := s, score := score s })] else w.pool), ?_⟩
    simp only [fetchWrapper, List.getD_cons_zero, optUrl, jsOr, truthy, Bool.false_eq_true,
      if_false, collect_str]
  · intro s hs
    have ht : truthy (.str s) = true := by
      cases s with
      | nil => exact absurd rfl hs
      | cons c t => rfl
    refine ⟨(if includes s (lit ".m3u8") = true ∧ w.pool.has s = false
      then w.pool ++ [(s, { url := s, score := score s })] else w.pool), ?_⟩
    simp only [fetchWrapper, List.getD_cons_zero, optUrl, jsOr, ht, if_true, collect_str]
  · rintro a (rfl | rfl) <;> rfl
  · intro m s
    refine ⟨(if includes s (lit ".m3u8") = true ∧ w.pool.has s = false
      then w.pool ++ [(s, { url := s, score := score s })] else w.pool), ?_⟩
    simp only [openWrapper, List.getD_cons_succ, List.getD_cons_zero, collect_str]

/-! ## The title resolver -/

theorem fallbackLoop_first (document : Document) (sels : List String) (i : Nat)
    (sel : String) (el : Element) (hi : sels[i]? = some sel)
    (hq : document.querySelector sel = some el) (hv : (trim el.innerText).length > 2)
    (hprev : ∀ j sel', j < i → sels[j]? = some sel' →
      ∀ el', document.querySelector sel' = some el' → (trim el'.innerText).length ≤ 2) :
    fallbackLoop document sels = some (trim el.innerText) := by
  induction sels generalizing i with
  | nil => simp at hi
  | cons x rest ih =>
    cases i with
    | zero =>
      simp only [List.getElem?_cons_zero, Option.some.injEq] at hi
      subst hi
      simp only [fallbackLoop, hq, if_pos hv]
    | succ n =>
      simp only [List.getElem?_cons_succ] at hi
      have hrest := ih n hi (fun j sel' hj hs => hprev (j + 1) sel' (by omega)
        (by simpa using hs))
      have h0 := hprev 0 x (by omega) (by simp)
      simp only [fallbackLoop]
      cases hx : document.querySelector x with
      | none => exact hrest
      | some e =>
        have := h0 e hx
        simp only [if_neg (show ¬ (trim e.innerText).length > 2 by omega)]
        exact hrest

theorem fallbackLoop_none (document : Document) (sels : List String)
    (h : ∀ sel ∈ sels, ∀ el, document.querySelector sel = some el →
      (trim el.innerText).length ≤ 2) :
    fallbackLoop document sels = none := by
  induction sels with
  | nil => rfl
  | cons x rest ih =>
    have hrest := ih (fun sel hs => h sel (List.mem_cons_of_mem _ hs))
    simp only [fallbackLoop]
    cases hx : document.querySelector x with
    | none => exact hrest
    | some e =>
      have := h x (List.mem_cons_self _ _) e hx
      simp only [if_neg (show ¬ (trim e.innerText).length > 2 by omega)]
      exact hrest

theorem replaceSeparatorTail_split (pre : JSString) (sep : Nat) (post : JSString)
    (hsep : isSeparator sep = true) (hpre : ∀ c ∈ pre, isSeparator c = false)
    (hpost : ∀ c ∈ post, isLineTerminator c = false) :
    replaceSeparatorTail (pre ++ sep :: post) = pre := by
  induction pre with
  | nil =>
    simp only [List.nil_append, replaceSeparatorTail, hsep, if_true]
    rw [List.dropWhile_eq_nil_iff]
    intro c hc
    simp [hpost c hc]
  | cons x xs ih =>
    have hx := hpre x (List.mem_cons_self _ _)
    simp only [List.cons_append, replaceSeparatorTail, hx, Bool.false_eq_true, if_false]
    change x :: replaceSeparatorTail (xs ++ sep :: post) = x :: xs
    rw [ih (fun c hc => hpre c (List.mem_cons_of_mem _ hc))]

theorem replaceSeparatorTail_none (s : JSString) (h : ∀ c ∈ s, isSeparator c = false) :
    replaceSeparatorTail s = s := by
  induction s with
  | nil => rfl
  | cons x xs ih =>
    have hx := h x (List.mem_cons_self _ _)
    simp only [replaceSeparatorTail, hx, Bool.false_eq_true, if_false]
    rw [ih (fun c hc => h c (List.mem_cons_of_mem _ hc))]

/-- The value of `getTitle` once the primary element is absent or blank. -/
theorem getTitle_of_primary_invalid (document : Document)
    (hprim : ∀ el, document.querySelector ".title-row .title.new_title" = some el →
      (trim el.innerText).length = 0) :
    getTitle document =
      match fallbackLoop document selectors with
      | some t => t
      | none => trim (replaceSeparatorTail document.title) := by
  unfold getTitle
  cases hq : document.querySelector ".title-row .title.new_title" with
  | none => rfl
  | some el =>
    have := hprim el hq
    simp only [if_neg (show ¬ (trim el.innerText).length > 0 by omega)]

/-- C9: when neither the primary element nor a fallback selector yields a valid
element and the document title has no line terminator, `getTitle` returns the
part of the title before its first separator (`-`, `_`, `｜`, `|`), trimmed, and
the whole title, trimmed, when it has no separator; for the title
"Lesson 3 - Example Academy" it returns "Lesson 3". -/
theorem getTitle_document_title (document : Document)
    (hprim : ∀ el, document.querySelector ".title-row .title.new_title" = some el →
      (trim el.innerText).length = 0)
    (hfb : ∀ sel ∈ ["h1", ".course-title", ".lesson-title", ".title"],
      ∀ el, document.querySelector sel = some el → (trim el.innerText).length ≤ 2)
    (hline : ∀ c ∈ document.title, isLineTerminator c = false) :
    (∀ (pre : JSString) (sep : Nat) (post : JSString),
      document.title = pre ++ sep :: post →
      (sep = 0x2D ∨ sep = 0x5F ∨ sep = 0xFF5C ∨ sep = 0x7C) →
      (∀ c ∈ pre, c ≠ 0x2D ∧ c ≠ 0x5F ∧ c ≠ 0xFF5C ∧ c ≠ 0x7C) →
      getTitle document = trim pre) ∧
    ((∀ c ∈ document.title, c ≠ 0x2D ∧ c ≠ 0x5F ∧ c ≠ 0xFF5C ∧ c ≠ 0x7C) →
      getTitle document = trim document.title) ∧
    getTitle { querySelector := fun _ => none, title := lit "Lesson 3 - Example Academy" }
      = lit "Lesson 3" := by
  have hnone : fallbackLoop document selectors = none := fallbackLoop_none document _ hfb
  have hget := getTitle_of_primary_invalid document hprim
  rw [hnone] at hget
  simp only at hget
  have hsepF : ∀ c : Nat, (c ≠ 0x2D ∧ c ≠ 0x5F ∧ c ≠ 0xFF5C ∧ c ≠ 0x7C) →
      isSeparator c = false := by
    intro c hc
    simp [isSeparator, hc.1, hc.2.1, hc.2.2.1, hc.2.2.2]
  refine ⟨?_, ?_, by decide⟩
  · intro pre sep post htitle hsep hpre
    have hs : isSeparator sep = true := by
      rcases hsep with rfl | rfl | rfl | rfl <;> decide
    rw [hget, htitle, replaceSeparatorTail_split pre sep post hs
      (fun c hc => hsepF c (hpre c hc))
      (fun c hc => hline c (by rw [htitle]; simp [hc]))]
  · intro hno
    rw [hget, replaceSeparatorTail_none _ (fun c hc => hsepF c (hno c hc))]

/-- C9 on a page whose `h1` holds the two characters "ab" and whose title is
" Unit 1 | School". -/
theorem getTitle_document_title_witness :
    getTitle { querySelector := fun sel => if sel = "h1" then some { innerText := lit "ab" }
                 else none,
               title := lit " Unit 1 | School" } = lit "Unit 1" :=
  (getTitle_document_title
    { querySelector := fun sel => if sel = "h1" then some { innerText := lit "ab" } else none,
      title := lit " Unit 1 | School" }
    (by decide) (by decide) (by decide)).1 (lit " Unit 1 ") 0x7C (lit " School")
    (by decide) (by decide) (by decide)

/-- C10: when the primary title element is present with non-empty trimmed text,
`getTitle` returns that trimmed text whatever else the page holds; when it is
absent or blank, `getTitle` returns the trimmed text of the first of `h1`,
`.course-title`, `.lesson-title`, `.title` whose element has trimmed text longer
than two code units. -/
theorem getTitle_primary_then_fallbacks (document : Document) :
    (∀ el, document.querySelector ".title-row .title.new_title" = some el →
      (trim el.innerText).length > 0 → getTitle document = trim el.innerText) ∧
    ((document.querySelector ".title-row .title.new_title" = none ∨
        ∃ el, document.querySelector ".title-row .title.new_title" = some el ∧
          (trim el.innerText).length = 0) →
      ∀ (i : Nat) (sel : String) (el : Element),
        ["h1", ".course-title", ".lesson-title", ".title"][i]? = some sel →
        document.querySelector sel = some el → (trim el.innerText).length > 2 →
        (∀ j sel', j < i → ["h1", ".course-title", ".lesson-title", ".title"][j]? = some sel' →
          ∀ el', document.querySelector sel' = some el' → (trim el'.innerText).length ≤ 2) →
        getTitle document = trim el.innerText) := by
  constructor
  · intro el hq hv
    unfold getTitle
    simp only [hq, if_pos hv]
  · intro hprim i sel el hi hq hv hprev
    have hp : ∀ el, document.querySelector ".title-row .title.new_title" = some el →
        (trim el.innerText).length = 0 := by
      intro e he
      rcases hprim with h | ⟨e', he', hl⟩
      · rw [h] at he; cases he
      · rw [he'] at he; cases he; exact hl
    rw [getTitle_of_primary_invalid document hp,
      fallbackLoop_first document selectors i sel el hi hq hv hprev]

/-- C10 on a page with a primary title " Course A " and an `h1` "Other heading". -/
theorem getTitle_primary_then_fallbacks_witness :
    getTitle { querySelector := fun sel =>
                 if sel = ".title-row .title.new_title" then some { innerText := lit " Course A " }
                 else if sel = "h1" then some { innerText := lit "Other heading" }
                 else none,
               title := lit "Site" } = lit "Course A" :=
  (getTitle_primary_then_fallbacks
    { querySelector := fun sel =>
        if sel = ".title-row .title.new_title" then some { innerText := lit " Course A " }
        else if sel = "h1" then some { innerText := lit "Other heading" }
        else none,
      title := lit "Site" }).1 { innerText := lit " Course A " } (by decide) (by decide)

/-! ## The export action -/

/-- C6: on an empty pool the click handler makes exactly one call, the alert, so
no title is resolved, no blob is built and nothing is downloaded; and a run of
the handler that alerts started from an empty pool. -/
theorem onclick_empty_pool (host : Host) :
    onclick host [] = .ok [.alert (lit "请先播放课程")] ∧
    ∀ (pool : Pool) (effects : List Effect) (message : JSString),
      onclick host pool = .ok effects → Effect.alert message ∈ effects → pool = [] := by
  refine ⟨rfl, ?_⟩
  intro pool effects message hrun hmem
  by_contra hne
  have hsize : ¬ pool.size = 0 := by
    simpa [Pool.size] using hne
  unfold onclick at hrun
  simp only [if_neg hsize] at hrun
  cases hb : best pool with
  | none => rw [hb] at hrun; cases hrun
  | some b =>
    rw [hb] at hrun
    simp only [Except.ok.injEq] at hrun
    subst hrun
    simp at hmem

/-- C7: on a non-empty pool the click handler resolves the title, builds one blob
holding the serialization of the one-record list `[{ title, m3u8 }]`, with
`title` the resolved title and `m3u8` the URL of a maximum-score entry, and
issues exactly one download, of that blob's object URL under the name
"m3u8_list.json"; for the pool `{url1: score 5}` the `m3u8` field is `url1`. -/
theorem onclick_nonempty_pool (host : Host) (pool : Pool) (h : pool ≠ []) :
    (∃ b, best pool = some b ∧ b ∈ pool.values ∧ (∀ e ∈ pool.values, e.score ≤ b.score) ∧
      onclick host pool = .ok
        [.getTitle,
         .newBlob { parts := [stringify [{ title := getTitle host.document, m3u8 := b.url }]],
                    type := lit "application/json" },
         .createObjectURL
           { parts := [stringify [{ title := getTitle host.document, m3u8 := b.url }]],
             type := lit "application/json" },
         .GM_download
           (host.createObjectURL
             { parts := [stringify [{ title := getTitle host.document, m3u8 := b.url }]],
               type := lit "application/json" })
           (lit "m3u8_list.json")]) ∧
    (∀ url1 : JSString,
      onclick host [(url1, { url := url1, score := 5 })] = .ok
        [.getTitle,
         .newBlob { parts := [stringify [{ title := getTitle host.document, m3u8 := url1 }]],
                    type := lit "application/json" },
         .createObjectURL
           { parts := [stringify [{ title := getTitle host.document, m3u8 := url1 }]],
             type := lit "application/json" },
         .GM_download
           (host.createObjectURL
             { parts := [stringify [{ title := getTitle host.document, m3u8 := url1 }]],
               type := lit "application/json" })
           (lit "m3u8_list.json")]) ∧
    stringify [{ title := lit "T", m3u8 := lit "url1" }]
      = lit "[\n  \x7b\n    \"title\": \"T\",\n    \"m3u8\": \"url1\"\n  \x7d\n]" := by
  refine ⟨?_, fun url1 => rfl, by decide⟩
  have hv : pool.values ≠ [] := fun hv => h (List.map_eq_nil_iff.mp hv)
  obtain ⟨b, hb, hmem, hmax⟩ := sort_head pool.values hv
  have hbest : best pool = some b := hb
  have hsize : ¬ pool.size = 0 := by
    simpa [Pool.size] using h
  refine ⟨b, hbest, hmem, hmax, ?_⟩
  unfold onclick
  simp only [if_neg hsize, hbest]

/-- C7 on the pool `{"u.m3u8": score 5, "v.m3u8": score 9}`. -/
theorem onclick_nonempty_pool_witness :
    ∃ effects, onclick
        { document := { querySelector := fun _ => none, title := lit "T - S" },
          createObjectURL := fun _ => lit "blob:1" }
        [(lit "u.m3u8", { url := lit "u.m3u8", score := 5 }),
         (lit "v.m3u8", { url := lit "v.m3u8", score := 9 })] = .ok effects ∧
      Effect.GM_download (lit "blob:1") (lit "m3u8_list.json") ∈ effects := by
  obtain ⟨b, _, _, _, hrun⟩ := (onclick_nonempty_pool
    { document := { querySelector := fun _ => none, title := lit "T - S" },
      createObjectURL := fun _ => lit "blob:1" }
    [(lit "u.m3u8", { url := lit "u.m3u8", score := 5 }),
     (lit "v.m3u8", { url := lit "v.m3u8", score := 9 })] (by decide)).1
  exact ⟨_, hrun, by simp⟩

end XetExport
